import Mathlib

/-!
Verification of the sonda ("sonar") bundle-attribution plugin.

The development shallowly embeds the plugin factory found in the repository
(`generateReportFromAssets`, the `load`, `writeBundle`, webpack
`optimizeModules` hooks and `rollupHandler`) as pure Lean functions over an
association list that models the JavaScript `inputs` object (insertion
ordered, unique keys) and the `sourcesGraph` `Map`.

Path helpers: `join` and `dirname` come from node's `path` module (external
standard library); they are embedded with POSIX semantics.  `normalizePath`
lives in `src/utils.ts`, which is not among the provided sources, so it is
modelled from the specification (see its doc comment).  All string
manipulation is done by structural recursion on character lists so that every
definition evaluates inside the kernel.
-/

set_option autoImplicit false

/-- Module format tag, as in `types.ts` (`ModuleFormat`). -/
inductive ModuleFormat where
  | esm
  | cjs
  | unknown
  deriving DecidableEq, Repr

/-- One value of the `JsonReport['inputs']` record: the per-module facts the
plugin collects. -/
structure ModuleEntry where
  bytes : Nat
  format : ModuleFormat
  imports : List String
  belongsTo : Option String
  deriving DecidableEq, Repr

/-- The `inputs` object: a JavaScript object used as a string-keyed map.
Represented as an insertion-ordered association list with unique keys. -/
abbrev Inputs := List (String × ModuleEntry)

/-- JavaScript object / `Map` read: first entry with the given key. -/
def lookupKey {β : Type} : List (String × β) → String → Option β
  | [], _ => none
  | (k', v') :: rest, k => if k' = k then some v' else lookupKey rest k

/-- JavaScript object / `Map` write: update the existing entry in place
(keeping its position) or append a new one. -/
def setKey {β : Type} : List (String × β) → String → β → List (String × β)
  | [], k, v => [(k, v)]
  | (k', v') :: rest, k, v =>
    if k' = k then (k, v) :: rest else (k', v') :: setKey rest k v

/-- Replace a backslash by a forward slash, other characters unchanged. -/
def toSlash (c : Char) : Char := if c = '\\' then '/' else c

/-- Split a character list on `'/'` (the result is never empty). -/
def splitSegs : List Char → List (List Char)
  | [] => [[]]
  | c :: cs =>
    if c = '/' then [] :: splitSegs cs
    else
      match splitSegs cs with
      | [] => [[c]]
      | s :: ss => (c :: s) :: ss

/-- `..` handling during segment resolution: pop the previous segment, or
keep the `..` when there is nothing left to pop (the stack is empty or its
top is itself a kept `..`). -/
def popDots : List (List Char) → List (List Char)
  | [] => [['.', '.']]
  | t :: rest => if t = ['.', '.'] then ['.', '.'] :: t :: rest else rest

/-- One step of segment resolution over a stack (most recent segment first):
empty and `.` segments are dropped, `..` pops the previous segment (and is
kept when there is nothing left to pop), anything else is pushed. -/
def pushSeg (stack : List (List Char)) (s : List Char) : List (List Char) :=
  if s = [] ∨ s = ['.'] then stack
  else if s = ['.', '.'] then popDots stack
  else s :: stack

/-- Resolve `.`/`..`/empty segments, keeping the original order. -/
def resolveSegs (segs : List (List Char)) : List (List Char) :=
  (segs.foldl pushSeg []).reverse

/-- Interleave `'/'` between segments. -/
def joinSegs : List (List Char) → List Char
  | [] => []
  | [s] => s
  | s :: ss => s ++ '/' :: joinSegs ss

/-- Character-list core of `normalizePath`: replace backslashes by slashes,
split on `/`, resolve empty, `.` and `..` segments, and rejoin. -/
def normChars (l : List Char) : List Char :=
  joinSegs (resolveSegs (splitSegs (l.map toSlash)))

/-- Modelled from the spec: `normalizePath` is defined in `src/utils.ts`,
which is not among the provided sources.  Specification §4.1: it canonicalizes
any absolute, relative, or tool-native identifier into one root-relative,
separator-normalized string key, is pure and idempotent, and maps inputs that
differ only in separator style or redundant segments to the same key.  The
model replaces backslashes by slashes, splits on `/`, resolves empty, `.` and
`..` segments, and rejoins; a leading `/` (absolute path) is dropped, making
the key root-relative. -/
def normalizePath (p : String) : String := ⟨normChars p.data⟩

/-- Whether a character list denotes an absolute POSIX path. -/
def isAbsolute : List Char → Bool
  | '/' :: _ => true
  | _ => false

/-- POSIX `path.dirname` from node's standard library: everything before the
last path separator, `.` when there is no directory part, `/` for the root. -/
def dirname (p : String) : String :=
  let cs := p.data
  let abs := isAbsolute cs
  let segs := (splitSegs cs).filter (· ≠ [])
  match segs.dropLast with
  | [] => if abs then "/" else "."
  | init => (if abs then "/" else "") ++ String.mk (joinSegs init)

/-- Node `path.join` restricted to two arguments: concatenation with a single
separator.  Node's `join` also normalizes the result, but every use in the
plugin immediately feeds the result to `normalizePath`, which subsumes that
normalization. -/
def joinPath (a b : String) : String :=
  if a = "" then b else if b = "" then a else a ++ "/" ++ b

/-- The default record written by the `load` hook:
`{ bytes: 0, format: 'unknown', imports: [], belongsTo: null }`. -/
def defaultEntry : ModuleEntry := ⟨0, .unknown, [], none⟩

/-- The child key computed inside `generateReportFromAssets`:
`normalizePath( join( dirname( path ), source ) )`. -/
def childKey (path source : String) : String :=
  normalizePath (joinPath (dirname path) source)

/-- The body of the `sourcesGraph.forEach` callback in
`generateReportFromAssets`: `const parent = inputs[ path ]` is read once, then
for every `source` the virtual entry
`{ bytes: 0, format: parent.format, imports: [], belongsTo: path }` is written
at `childKey path source`, overwriting whatever was there.  `none` models the
`TypeError` thrown when `sources` is non-empty but `inputs[ path ]` is
`undefined` (`parent.format` on `undefined`). -/
def attributeOne (inputs : Inputs) (path : String) (sources : List String) :
    Option Inputs :=
  match sources with
  | [] => some inputs
  | _ :: _ =>
    match lookupKey inputs path with
    | none => none
    | some parent =>
      some (sources.foldl
        (fun acc src =>
          setKey acc (childKey path src) ⟨0, parent.format, [], some path⟩)
        inputs)

/-- The whole `sourcesGraph.forEach` loop of `generateReportFromAssets`,
visiting the `Map` entries in insertion order. -/
def attributeAll (inputs : Inputs) :
    List (String × List String) → Option Inputs
  | [] => some inputs
  | (p, srcs) :: rest =>
    match attributeOne inputs p srcs with
    | none => none
    | some inputs' => attributeAll inputs' rest

/-- The mutable state captured by the plugin `factory` closure:
`inputs`, `sourcesGraph`, and the `outputDir` / `assets` variables that are
`undefined` until a bundler hook assigns them. -/
structure FactoryState where
  inputs : Inputs
  sourcesGraph : List (String × List String)
  outputDir : Option String
  assets : Option (List String)
  deriving DecidableEq, Repr

/-- The state of the freshly created plugin: empty maps, unassigned
`outputDir` and `assets`. -/
def initialState : FactoryState := ⟨[], [], none, none⟩

/-- The `load( id )` hook: writes the default record at `normalizePath( id )`
and, when `loadCodeAndMap` produced a source map with a `sources` array
(`mapSources`, an input fact: `loadCodeAndMap` reads the filesystem), records
it in `sourcesGraph` under the same key. -/
def loadStep (st : FactoryState) (id : String)
    (mapSources : Option (List String)) : FactoryState :=
  let k := normalizePath id
  { st with
    inputs := setKey st.inputs k defaultEntry,
    sourcesGraph :=
      match mapSources with
      | some srcs => setKey st.sourcesGraph k srcs
      | none => st.sourcesGraph }

/-- Suffix test on strings, by structural recursion on character lists. -/
def strEndsWith (s suffix : String) : Bool :=
  suffix.data.isSuffixOf s.data

/-- The regular expression `\.m[tj]sx?$` of `rollupHandler`. -/
def matchesEsmExt (file : String) : Bool :=
  strEndsWith file ".mts" || strEndsWith file ".mjs" ||
    strEndsWith file ".mtsx" || strEndsWith file ".mjsx"

/-- The regular expression `\.c[tj]sx?$` of `rollupHandler`. -/
def matchesCjsExt (file : String) : Bool :=
  strEndsWith file ".cts" || strEndsWith file ".cjs" ||
    strEndsWith file ".ctsx" || strEndsWith file ".cjsx"

/-- `guessFormat` from `rollupHandler`. -/
def guessFormat (file : String) : Option ModuleFormat :=
  if matchesEsmExt file then some .esm
  else if matchesCjsExt file then some .cjs
  else none

/-- `formats.get( module.meta.commonjs?.isCommonJS ) ?? guessFormat( module.id )
?? 'unknown'` from `rollupHandler`. -/
def rollupFormat (isCommonJS : Option Bool) (id : String) : ModuleFormat :=
  match isCommonJS with
  | some true => .cjs
  | some false => .esm
  | none => (guessFormat id).getD .unknown

/-- `module.code ? Buffer.byteLength( module.code ) : 0`: the byte length of
the UTF-8 encoding when `code` is present (JavaScript truthiness: the empty
string also yields 0, which coincides with its byte length). -/
def moduleBytes (code : Option String) : Nat :=
  match code with
  | some c => if c = "" then 0 else c.utf8ByteSize
  | none => 0

/-- The `moduleParsed` hook of `rollupHandler`: `inputs[ key ] ??= default`
followed by in-place assignment of `bytes`, `format` and `imports`
(`belongsTo` is preserved). -/
def moduleParsed (inputs : Inputs) (id : String) (code : Option String)
    (isCommonJS : Option Bool) (ids : List String) : Inputs :=
  let k := normalizePath id
  let e0 := (lookupKey inputs k).getD defaultEntry
  setKey inputs k
    { e0 with
      bytes := moduleBytes code,
      format := rollupFormat isCommonJS id,
      imports := ids.map normalizePath }

/-- One webpack `NormalModule` as consumed by the `optimizeModules` hook:
its `resource`, its `type` string, and its resolved dependency resources. -/
structure WebpackModule where
  resource : String
  type : String
  deps : List String
  deriving DecidableEq, Repr

/-- The `optimizeModules` callback body for one module: if `inputs[ resource ]`
(the raw, un-normalized resource) exists, mutate its `format` and `imports` in
place; otherwise create a record at `normalizePath( resource )` with
`bytes: 0`, the computed format, the normalized dependencies and
`belongsTo: null`. -/
def optimizeModule (inputs : Inputs) (m : WebpackModule) : Inputs :=
  let fmt : ModuleFormat := if m.type = "javascript/esm" then .esm else .cjs
  match lookupKey inputs m.resource with
  | some e => setKey inputs m.resource { e with format := fmt, imports := m.deps }
  | none =>
    setKey inputs (normalizePath m.resource) ⟨0, fmt, m.deps.map normalizePath, none⟩

/-- One adapter callback observed during the collection phase. -/
inductive AdapterEvent where
  | loadEv (id : String) (mapSources : Option (List String))
  | moduleParsedEv (id : String) (code : Option String)
      (isCommonJS : Option Bool) (ids : List String)
  | optimizeEv (m : WebpackModule)
  deriving DecidableEq, Repr

/-- Apply one adapter callback to the factory state. -/
def applyEvent (st : FactoryState) : AdapterEvent → FactoryState
  | .loadEv id mapSources => loadStep st id mapSources
  | .moduleParsedEv id code isCommonJS ids =>
    { st with inputs := moduleParsed st.inputs id code isCommonJS ids }
  | .optimizeEv m => { st with inputs := optimizeModule st.inputs m }

/-- Run a sequence of adapter callbacks. -/
def runEvents (st : FactoryState) (events : List AdapterEvent) : FactoryState :=
  events.foldl applyEvent st

/-- The error message thrown by `writeBundle` when it has no assets. -/
def missingOutputMessage : String :=
  "Could not detect output assets. Please file an issue in the Sonar repository."

/-- Models node `path.resolve( cwd, p )` (external standard library): an
absolute `p` wins, otherwise `p` is joined onto `cwd`.  Further normalization
performed by node is irrelevant to the claims. -/
def resolvePath (cwd p : String) : String :=
  if isAbsolute p.data then p else joinPath cwd p

/-- The Rollup `NormalizedOutputOptions` / `OutputBundle` pair passed to
`writeBundle`: `options.dir`, `options.file` and the keys of the bundle. -/
structure BundleArgs where
  dir : Option String
  file : Option String
  bundleNames : List String
  deriving DecidableEq, Repr

/-- `resolve( process.cwd(), options.dir ?? dirname( options.file! ) )`.
`none` models the `TypeError` when both `dir` and `file` are `undefined`. -/
def resolveOutputDir (cwd : String) (a : BundleArgs) : Option String :=
  match a.dir with
  | some d => some (resolvePath cwd d)
  | none => a.file.map (fun f => resolvePath cwd (dirname f))

/-- Models `generateReportFromAssets` up to the external collaborators: the
attribution loop runs, and on success the pair `(assets, attributed inputs)`
is the data handed to `generateHtmlReport` / `writeFileSync` (both outside
the provided sources).  `none` models the `TypeError` crash inside the
loop. -/
def generateReportData (assets : List String) (inputs : Inputs)
    (sourcesGraph : List (String × List String)) :
    Option (List String × Inputs) :=
  (attributeAll inputs sourcesGraph).map (fun attributed => (assets, attributed))

/-- The `writeBundle( ...args )` hook.  With no `args` and no previously
recorded `assets` it throws; with `args` it records `outputDir` and `assets`
from the Rollup bundle; then it calls `generateReportFromAssets`.  `.error`
models a thrown exception: no report data is produced. -/
def writeBundle (cwd : String) (st : FactoryState) (args : Option BundleArgs) :
    Except String (FactoryState × (List String × Inputs)) :=
  match args, st.assets with
  | none, none => .error missingOutputMessage
  | none, some prior =>
    match generateReportData prior st.inputs st.sourcesGraph with
    | none => .error "TypeError"
    | some data => .ok (st, data)
  | some a, _ =>
    match resolveOutputDir cwd a with
    | none => .error "TypeError"
    | some od =>
      let newAssets := a.bundleNames.map (fun n => joinPath od n)
      let st' := { st with outputDir := some od, assets := some newAssets }
      match generateReportData newAssets st'.inputs st'.sourcesGraph with
      | none => .error "TypeError"
      | some data => .ok (st', data)

/-- Modelled from the spec: the Size Analyzer (§4.4) lives in the report
generation code (`./report.js` / `generateHtmlReport`), which is not among the
provided sources.  The immediate virtual children of a compiled module `p`:
the keys of the entries whose `belongsTo` is `p`, in mapping (source-map
attribution) order. -/
def virtualChildren (inputs : Inputs) (p : String) : List String :=
  (inputs.filter (fun kv => kv.2.belongsTo = some p)).map (·.1)

/-- Modelled from the spec (§4.4): with no mapped-range information the
parent's measured bytes are split equally among its immediate virtual
children; the rounding remainder goes to the first child in source-map
order. -/
def childShare (inputs : Inputs) (p k : String) : Nat :=
  let children := virtualChildren inputs p
  let b := match lookupKey inputs p with | some e => e.bytes | none => 0
  let n := children.length
  if children.head? = some k then b / n + b % n else b / n

/-- Modelled from the spec (§4.4): one entry of the size computation — a
virtual entry receives its share of its parent's measured size, a real entry
is untouched. -/
def sizeOne (inputs : Inputs) (kv : String × ModuleEntry) :
    String × ModuleEntry :=
  match kv.2.belongsTo with
  | none => kv
  | some p => (kv.1, { kv.2 with bytes := childShare inputs p kv.1 })

/-- Modelled from the spec (§4.4): `computeSizes` rewrites the bytes of every
virtual entry to its share of its parent's measured size; real entries are
untouched. -/
def computeSizes (inputs : Inputs) : Inputs :=
  inputs.map (sizeOne inputs)

/-- A path segment that survives resolution untouched: non-empty, not `.`,
not `..`, and free of separator characters. -/
def SegOk (s : List Char) : Prop :=
  s ≠ [] ∧ s ≠ ['.'] ∧ s ≠ ['.', '.'] ∧ '/' ∉ s ∧ '\\' ∉ s

/-- Shape of every stack reachable by `pushSeg` from `[]`: plain segments on
top of a run of `..` segments at the bottom. -/
def StackOk (st : List (List Char)) : Prop :=
  ∃ ns k, st = ns ++ List.replicate k ['.', '.'] ∧ ∀ s ∈ ns, SegOk s

/-- Concrete mapping for the C1 witness: one compiled module. -/
def inputsW1 : Inputs := [("a/b/bundle.js", ⟨238, .esm, [], none⟩)]

/-- Concrete mapping for the C3 counterexample and witness: a compiled module
whose source map lists the module itself. -/
def inputsW3 : Inputs := [("a/b.js", ⟨10, .esm, [], none⟩)]

/-- Concrete mapping for the C4 counterexample and witness: two compiled
modules about to claim the same child. -/
def inputsW4 : Inputs :=
  [("a/p1.js", ⟨1, .esm, [], none⟩), ("a/p2.js", ⟨2, .cjs, [], none⟩)]

/-- The C4 source-map graph: both modules list `shared/util.ts`. -/
def graphW4 : List (String × List String) :=
  [("a/p1.js", ["shared/util.ts"]), ("a/p2.js", ["shared/util.ts"])]

/-- Concrete mapping for the C5 counterexample and witness: a compiled module
and a real (adapter-reported, `belongsTo = null`) module that its source map
also lists. -/
def inputsW5 : Inputs :=
  [("a/p.js", ⟨100, .esm, [], none⟩), ("a/real.ts", ⟨50, .cjs, ["util"], none⟩)]

/-- Concrete mapping for the C6 witness: the spec §8 scenario, parent
`a/b/bundle.js` with 238 bytes and two attributed sources. -/
def inputsW6 : Inputs :=
  [("a/b/bundle.js", ⟨238, .esm, [], none⟩),
   ("a/x.ts", ⟨0, .esm, [], some "a/b/bundle.js"⟩),
   ("a/y.ts", ⟨0, .esm, [], some "a/b/bundle.js"⟩)]

/-- Concrete mapping for the C8 counterexample: an entry whose key is already
canonical, carrying a non-zero byte count. -/
def inputsW8 : Inputs := [("a.js", ⟨5, .esm, [], none⟩)]

/-- The webpack module observed in the C8 counterexample: its raw `resource`
is `./a.js`, which normalizes to the existing key `a.js`. -/
def moduleW8 : WebpackModule := ⟨"./a.js", "javascript/esm", []⟩

/-- Adapter events for the C9 witness: one `load` with a source map. -/
def eventsW9 : List AdapterEvent := [.loadEv "a/b.js" (some ["../c.ts"])]

/-- The intermediate mapping of the C4 witness, after the first module's
attribution. -/
def midW4 : Inputs :=
  [("a/p1.js", ⟨1, .esm, [], none⟩), ("a/p2.js", ⟨2, .cjs, [], none⟩),
   ("a/shared/util.ts", ⟨0, .esm, [], some "a/p1.js"⟩)]

/-- The final mapping of the C4 witness, after both attributions. -/
def finalW4 : Inputs :=
  [("a/p1.js", ⟨1, .esm, [], none⟩), ("a/p2.js", ⟨2, .cjs, [], none⟩),
   ("a/shared/util.ts", ⟨0, .cjs, [], some "a/p2.js"⟩)]

/-- The final mapping of the C9 witness. -/
def finalW9 : Inputs :=
  [("a/b.js", defaultEntry), ("c.ts", ⟨0, .unknown, [], some "a/b.js"⟩)]

/-- Every non-null `belongsTo` in the mapping points at an existing key. -/
def BelongsClosed (l : Inputs) : Prop :=
  ∀ k e, lookupKey l k = some e → ∀ p, e.belongsTo = some p →
    ∃ e', lookupKey l p = some e'

/-- Before attribution runs, every recorded entry has `belongsTo = null`. -/
def BelongsNone (l : Inputs) : Prop :=
  ∀ k e, lookupKey l k = some e → e.belongsTo = none

/-! ### Association list lemmas -/

theorem lookupKey_setKey_self {β : Type} (l : List (String × β)) (k : String)
    (v : β) : lookupKey (setKey l k v) k = some v := by
  induction l with
  | nil => simp [setKey, lookupKey]
  | cons hd tl ih =>
    obtain ⟨k', v'⟩ := hd
    by_cases h : k' = k
    · simp [setKey, h, lookupKey]
    · simp [setKey, h, lookupKey, ih]

theorem lookupKey_setKey_of_ne {β : Type} (l : List (String × β))
    {k k₂ : String} (v : β) (h : k₂ ≠ k) :
    lookupKey (setKey l k v) k₂ = lookupKey l k₂ := by
  have hne : ¬ k = k₂ := fun h' => h h'.symm
  induction l with
  | nil => simp [setKey, lookupKey, hne]
  | cons hd tl ih =>
    obtain ⟨k', v'⟩ := hd
    by_cases hk : k' = k
    · subst hk
      simp [setKey, lookupKey, hne]
    · by_cases hk2 : k' = k₂ <;> simp [setKey, lookupKey, hk, hk2, ih, h]

theorem lookupKey_setKey_cases {β : Type} {l : List (String × β)}
    {k k₂ : String} {v e : β}
    (h : lookupKey (setKey l k v) k₂ = some e) :
    e = v ∨ lookupKey l k₂ = some e := by
  by_cases hk : k₂ = k
  · subst hk
    rw [lookupKey_setKey_self] at h
    exact Or.inl (Option.some_injective _ h).symm
  · rw [lookupKey_setKey_of_ne _ _ hk] at h
    exact Or.inr h

theorem exists_lookupKey_setKey {β : Type} (l : List (String × β))
    (k k₂ : String) (v : β) (h : ∃ e, lookupKey l k₂ = some e) :
    ∃ e, lookupKey (setKey l k v) k₂ = some e := by
  by_cases hk : k₂ = k
  · subst hk
    exact ⟨v, lookupKey_setKey_self l k₂ v⟩
  · rw [lookupKey_setKey_of_ne _ _ hk]
    exact h

theorem map_fst_setKey {β : Type} (l : List (String × β)) (k : String)
    (v : β) :
    (setKey l k v).map Prod.fst =
      if k ∈ l.map Prod.fst then l.map Prod.fst
      else l.map Prod.fst ++ [k] := by
  induction l with
  | nil => simp [setKey]
  | cons hd tl ih =>
    obtain ⟨k', v'⟩ := hd
    by_cases h : k' = k
    · simp [setKey, h]
    · have hne : ¬ k = k' := fun h' => h h'.symm
      simp only [setKey, if_neg h, List.map_cons, ih, List.mem_cons, hne, false_or]
      by_cases hm : k ∈ tl.map Prod.fst
      · simp [hm]
      · simp [hm, List.cons_append]

theorem nodup_map_fst_setKey {β : Type} {l : List (String × β)}
    (k : String) (v : β) (h : (l.map Prod.fst).Nodup) :
    ((setKey l k v).map Prod.fst).Nodup := by
  rw [map_fst_setKey]
  by_cases hm : k ∈ l.map Prod.fst
  · simpa [hm]
  · rw [if_neg hm]
    refine List.Nodup.append h (List.nodup_singleton k) ?_
    intro a ha hk
    simp only [List.mem_singleton] at hk
    exact hm (hk ▸ ha)

/-! ### Lemmas about folds that write one fixed value at computed keys -/

theorem foldl_setKey_keep {β : Type} (f : String → String) (v : β)
    (srcs : List String) :
    ∀ (acc : List (String × β)) (k : String), lookupKey acc k = some v →
      lookupKey (srcs.foldl (fun a s => setKey a (f s) v) acc) k = some v := by
  induction srcs with
  | nil => intro acc k h; simpa using h
  | cons s rest ih =>
    intro acc k h
    simp only [List.foldl_cons]
    refine ih _ _ ?_
    by_cases hk : k = f s
    · subst hk
      exact lookupKey_setKey_self acc (f s) v
    · rw [lookupKey_setKey_of_ne _ _ hk]
      exact h

theorem foldl_setKey_mem {β : Type} (f : String → String) (v : β)
    (srcs : List String) :
    ∀ (acc : List (String × β)) (s : String), s ∈ srcs →
      lookupKey (srcs.foldl (fun a s => setKey a (f s) v) acc) (f s) = some v := by
  induction srcs with
  | nil => intro acc s h; cases h
  | cons s0 rest ih =>
    intro acc s hs
    simp only [List.foldl_cons]
    rcases List.mem_cons.mp hs with h | h
    · subst h
      exact foldl_setKey_keep f v rest _ _ (lookupKey_setKey_self acc (f s) v)
    · exact ih _ s h

theorem foldl_setKey_cases {β : Type} (f : String → String) (v : β)
    (srcs : List String) :
    ∀ (acc : List (String × β)) (k : String) (e : β),
      lookupKey (srcs.foldl (fun a s => setKey a (f s) v) acc) k = some e →
      e = v ∨ lookupKey acc k = some e := by
  induction srcs with
  | nil => intro acc k e h; simpa using Or.inr h
  | cons s0 rest ih =>
    intro acc k e h
    simp only [List.foldl_cons] at h
    rcases ih _ _ _ h with h' | h'
    · exact Or.inl h'
    · exact lookupKey_setKey_cases h'

theorem foldl_setKey_exists {β : Type} (f : String → String) (v : β)
    (srcs : List String) :
    ∀ (acc : List (String × β)) (k : String), (∃ e, lookupKey acc k = some e) →
      ∃ e, lookupKey (srcs.foldl (fun a s => setKey a (f s) v) acc) k = some e := by
  induction srcs with
  | nil => intro acc k h; simpa using h
  | cons s0 rest ih =>
    intro acc k h
    simp only [List.foldl_cons]
    exact ih _ _ (exists_lookupKey_setKey _ _ _ _ h)

theorem foldl_setKey_nodup {β : Type} (f : String → String) (v : β)
    (srcs : List String) :
    ∀ (acc : List (String × β)), ((acc.map Prod.fst).Nodup) →
      ((srcs.foldl (fun a s => setKey a (f s) v) acc).map Prod.fst).Nodup := by
  induction srcs with
  | nil => intro acc h; simpa using h
  | cons s0 rest ih =>
    intro acc h
    simp only [List.foldl_cons]
    exact ih _ (nodup_map_fst_setKey _ _ h)

/-! ### Attribution lemmas -/

theorem attributeOne_of_mem {inputs : Inputs} {P : String}
    {sources : List String} {parent : ModuleEntry} {s : String}
    (hp : lookupKey inputs P = some parent) (hs : s ∈ sources) :
    ∃ out, attributeOne inputs P sources = some out ∧
      lookupKey out (childKey P s) = some ⟨0, parent.format, [], some P⟩ := by
  cases sources with
  | nil => cases hs
  | cons s0 rest =>
    refine ⟨(s0 :: rest).foldl
      (fun acc src => setKey acc (childKey P src)
        (⟨0, parent.format, [], some P⟩ : ModuleEntry)) inputs, ?_, ?_⟩
    · simp [attributeOne, hp]
    · exact foldl_setKey_mem (childKey P)
        (⟨0, parent.format, [], some P⟩ : ModuleEntry) (s0 :: rest) inputs s hs

theorem attributeOne_lookup_cases {inputs out : Inputs} {P : String}
    {sources : List String} {k : String} {e : ModuleEntry}
    (h : attributeOne inputs P sources = some out)
    (hk : lookupKey out k = some e) :
    (∃ parent, lookupKey inputs P = some parent ∧
      e = ⟨0, parent.format, [], some P⟩) ∨ lookupKey inputs k = some e := by
  cases sources with
  | nil =>
    simp only [attributeOne, Option.some.injEq] at h
    exact Or.inr (h ▸ hk)
  | cons s0 rest =>
    cases hp : lookupKey inputs P with
    | none => simp [attributeOne, hp] at h
    | some parent =>
      simp only [attributeOne, hp, Option.some.injEq] at h
      subst h
      rcases foldl_setKey_cases (childKey P)
          (⟨0, parent.format, [], some P⟩ : ModuleEntry) _ _ _ _ hk with h' | h'
      · exact Or.inl ⟨parent, rfl, h'⟩
      · exact Or.inr h'

theorem attributeOne_exists {inputs out : Inputs} {P : String}
    {sources : List String} {k : String}
    (h : attributeOne inputs P sources = some out)
    (hk : ∃ e, lookupKey inputs k = some e) :
    ∃ e, lookupKey out k = some e := by
  cases sources with
  | nil =>
    simp only [attributeOne, Option.some.injEq] at h
    exact h ▸ hk
  | cons s0 rest =>
    cases hp : lookupKey inputs P with
    | none => simp [attributeOne, hp] at h
    | some parent =>
      simp only [attributeOne, hp, Option.some.injEq] at h
      subst h
      exact foldl_setKey_exists (childKey P) ⟨0, parent.format, [], some P⟩ _ _ _ hk

theorem attributeOne_nodup {inputs out : Inputs} {P : String}
    {sources : List String}
    (h : attributeOne inputs P sources = some out)
    (hn : (inputs.map Prod.fst).Nodup) : (out.map Prod.fst).Nodup := by
  cases sources with
  | nil =>
    simp only [attributeOne, Option.some.injEq] at h
    exact h ▸ hn
  | cons s0 rest =>
    cases hp : lookupKey inputs P with
    | none => simp [attributeOne, hp] at h
    | some parent =>
      simp only [attributeOne, hp, Option.some.injEq] at h
      subst h
      exact foldl_setKey_nodup (childKey P) ⟨0, parent.format, [], some P⟩ _ _ hn

theorem attributeAll_append (inputs : Inputs)
    (g h : List (String × List String)) :
    attributeAll inputs (g ++ h) =
      match attributeAll inputs g with
      | none => none
      | some m => attributeAll m h := by
  induction g generalizing inputs with
  | nil => simp [attributeAll]
  | cons pr rest ih =>
    obtain ⟨p, srcs⟩ := pr
    simp only [List.cons_append, attributeAll]
    cases attributeOne inputs p srcs with
    | none => rfl
    | some m => exact ih m

theorem attributeAll_exists {inputs out : Inputs}
    {g : List (String × List String)} {k : String}
    (h : attributeAll inputs g = some out)
    (hk : ∃ e, lookupKey inputs k = some e) :
    ∃ e, lookupKey out k = some e := by
  induction g generalizing inputs with
  | nil =>
    simp only [attributeAll, Option.some.injEq] at h
    exact h ▸ hk
  | cons pr rest ih =>
    obtain ⟨p, srcs⟩ := pr
    simp only [attributeAll] at h
    cases h1 : attributeOne inputs p srcs with
    | none => rw [h1] at h; cases h
    | some m =>
      rw [h1] at h
      exact ih h (attributeOne_exists h1 hk)

theorem attributeAll_nodup {inputs out : Inputs}
    {g : List (String × List String)}
    (h : attributeAll inputs g = some out)
    (hn : (inputs.map Prod.fst).Nodup) : (out.map Prod.fst).Nodup := by
  induction g generalizing inputs with
  | nil =>
    simp only [attributeAll, Option.some.injEq] at h
    exact h ▸ hn
  | cons pr rest ih =>
    obtain ⟨p, srcs⟩ := pr
    simp only [attributeAll] at h
    cases h1 : attributeOne inputs p srcs with
    | none => rw [h1] at h; cases h
    | some m =>
      rw [h1] at h
      exact ih h (attributeOne_nodup h1 hn)

theorem attributeOne_belongsClosed {inputs out : Inputs} {P : String}
    {sources : List String} (hc : BelongsClosed inputs)
    (h : attributeOne inputs P sources = some out) : BelongsClosed out := by
  intro k e hk p hbp
  rcases attributeOne_lookup_cases h hk with ⟨parent, hpar, he⟩ | hold
  · subst he
    simp only at hbp
    cases hbp
    exact attributeOne_exists h ⟨parent, hpar⟩
  · exact attributeOne_exists h (hc k e hold p hbp)

theorem attributeAll_belongsClosed {inputs out : Inputs}
    {g : List (String × List String)} (hc : BelongsClosed inputs)
    (h : attributeAll inputs g = some out) : BelongsClosed out := by
  induction g generalizing inputs with
  | nil =>
    simp only [attributeAll, Option.some.injEq] at h
    exact h ▸ hc
  | cons pr rest ih =>
    obtain ⟨p, srcs⟩ := pr
    simp only [attributeAll] at h
    cases h1 : attributeOne inputs p srcs with
    | none => rw [h1] at h; cases h
    | some m =>
      rw [h1] at h
      exact ih (attributeOne_belongsClosed hc h1) h

theorem applyEvent_belongsNone {st : FactoryState} (ev : AdapterEvent)
    (h : BelongsNone st.inputs) : BelongsNone (applyEvent st ev).inputs := by
  cases ev with
  | loadEv id mapSources =>
    intro k e hk
    rcases lookupKey_setKey_cases hk with he | he
    · subst he; rfl
    · exact h k e he
  | moduleParsedEv id code isCommonJS ids =>
    intro k e hk
    rcases lookupKey_setKey_cases hk with he | he
    · subst he
      cases heq : lookupKey st.inputs (normalizePath id) with
      | none => simp [heq, defaultEntry]
      | some e1 => simpa [heq] using h _ e1 heq
    · exact h k e he
  | optimizeEv m =>
    intro k e hk
    simp only [applyEvent, optimizeModule] at hk
    cases heq : lookupKey st.inputs m.resource with
    | none =>
      rw [heq] at hk
      rcases lookupKey_setKey_cases hk with he | he
      · subst he; rfl
      · exact h k e he
    | some e1 =>
      rw [heq] at hk
      rcases lookupKey_setKey_cases hk with he | he
      · subst he
        exact h _ e1 heq
      · exact h k e he

theorem runEvents_belongsNone (events : List AdapterEvent) :
    ∀ (st : FactoryState), BelongsNone st.inputs →
      BelongsNone (runEvents st events).inputs := by
  induction events with
  | nil => intro st h; simpa [runEvents] using h
  | cons ev rest ih =>
    intro st h
    simpa [runEvents, List.foldl_cons] using
      ih (applyEvent st ev) (applyEvent_belongsNone ev h)

theorem belongsNone_belongsClosed {l : Inputs} (h : BelongsNone l) :
    BelongsClosed l := by
  intro k e hk p hbp
  rw [h k e hk] at hbp
  cases hbp

theorem attributeAll_singleton (inputs : Inputs) (P : String)
    (srcs : List String) :
    attributeAll inputs [(P, srcs)] = attributeOne inputs P srcs := by
  simp only [attributeAll]
  cases attributeOne inputs P srcs <;> rfl

/-! ### Claim theorems C1 – C5 -/

/-- C1: for every compiled module key `P` with a source-map source list and
every source `s` in that list, the attribution step computes the child key as
`normalizePath (join (dirname P) s)` and records there a virtual entry with
`bytes = 0`, `imports = []`, `belongsTo = P` and the parent entry's format. -/
theorem c1_attribution_records_virtual_entry
    (inputs : Inputs) (P : String) (sources : List String)
    (parent : ModuleEntry) (s : String)
    (hp : lookupKey inputs P = some parent) (hs : s ∈ sources) :
    ∃ out, attributeOne inputs P sources = some out ∧
      lookupKey out (normalizePath (joinPath (dirname P) s))
        = some ⟨0, parent.format, [], some P⟩ :=
  attributeOne_of_mem hp hs

/-- Witness for C1: the spec §8 scenario module `a/b/bundle.js` with source
`../x.ts` produces the virtual entry at `a/x.ts`. -/
theorem c1_attribution_witness :
    lookupKey inputsW1 "a/b/bundle.js" = some ⟨238, .esm, [], none⟩ ∧
    "../x.ts" ∈ ["../x.ts", "../y.ts"] ∧
    ∃ out, attributeOne inputsW1 "a/b/bundle.js" ["../x.ts", "../y.ts"]
        = some out ∧
      lookupKey out (normalizePath (joinPath (dirname "a/b/bundle.js") "../x.ts"))
        = some ⟨0, .esm, [], some "a/b/bundle.js"⟩ :=
  ⟨by decide, by decide,
    c1_attribution_records_virtual_entry inputsW1 "a/b/bundle.js"
      ["../x.ts", "../y.ts"] ⟨238, .esm, [], none⟩ "../x.ts"
      (by decide) (by decide)⟩

/-- C2: with no arguments to `writeBundle` and no previously recorded asset
list, report generation throws (`.error`, the `MissingOutputError` of the
spec) and no report data is produced. -/
theorem c2_missing_output_error (cwd : String) (st : FactoryState)
    (h : st.assets = none) :
    writeBundle cwd st none = .error missingOutputMessage := by
  simp [writeBundle, h]

/-- Witness for C2: the freshly created plugin state. -/
theorem c2_missing_output_witness :
    initialState.assets = none ∧
    writeBundle "/cwd" initialState none = .error missingOutputMessage :=
  ⟨rfl, c2_missing_output_error "/cwd" initialState rfl⟩

/-- C3 counterexample: module `a/b.js` whose source map lists `b.js` — the
child key normalizes to the module's own key, and attribution does not skip
it: the final mapping maps `a/b.js` to an entry with `belongsTo = a/b.js`,
its own key. -/
theorem c3_self_reference_cex :
    attributeAll inputsW3 [("a/b.js", ["b.js"])]
      = some [("a/b.js", ⟨0, .esm, [], some "a/b.js"⟩)] ∧
    (some "a/b.js" : Option String) ≠ none := by decide

/-- C3 (amended): when a source of compiled module `P` normalizes to `P`'s own
key, the attribution does not skip it: `P`'s entry is overwritten with a
virtual entry whose `belongsTo` is `P` itself. -/
theorem c3_self_reference_not_skipped
    (inputs : Inputs) (P : String) (sources : List String)
    (parent : ModuleEntry) (s : String)
    (hp : lookupKey inputs P = some parent) (hs : s ∈ sources)
    (hself : childKey P s = P) :
    ∃ out, attributeOne inputs P sources = some out ∧
      lookupKey out P = some ⟨0, parent.format, [], some P⟩ := by
  obtain ⟨out, h1, h2⟩ := attributeOne_of_mem hp hs
  rw [hself] at h2
  exact ⟨out, h1, h2⟩

/-- Witness for the amended C3. -/
theorem c3_self_reference_witness :
    childKey "a/b.js" "b.js" = "a/b.js" ∧
    ∃ out, attributeOne inputsW3 "a/b.js" ["b.js"] = some out ∧
      lookupKey out "a/b.js" = some ⟨0, .esm, [], some "a/b.js"⟩ :=
  ⟨by decide,
    c3_self_reference_not_skipped inputsW3 "a/b.js" ["b.js"]
      ⟨10, .esm, [], none⟩ "b.js" (by decide) (by decide) (by decide)⟩

/-- C4 counterexample: `a/p1.js` and `a/p2.js` both attribute
`a/shared/util.ts`; the final entry's `belongsTo` is `a/p2.js`, the *second*
writer, not the first. -/
theorem c4_last_writer_cex :
    attributeAll inputsW4 graphW4
      = some [("a/p1.js", ⟨1, .esm, [], none⟩),
              ("a/p2.js", ⟨2, .cjs, [], none⟩),
              ("a/shared/util.ts", ⟨0, .cjs, [], some "a/p2.js"⟩)] ∧
    ("a/p2.js" : String) ≠ "a/p1.js" := by decide

/-- C4 (amended): when the same child key is produced by two compiled modules
in the same run, the *later* attribution overwrites the earlier one (last
writer wins), and the mapping still contains exactly one entry for that key
(key uniqueness is preserved). -/
theorem c4_last_writer_wins
    (inputs mid final : Inputs) (g : List (String × List String))
    (P : String) (sources : List String) (parent : ModuleEntry) (s : String)
    (h1 : attributeAll inputs g = some mid)
    (hp : lookupKey mid P = some parent)
    (hs : s ∈ sources)
    (h2 : attributeAll inputs (g ++ [(P, sources)]) = some final) :
    lookupKey final (childKey P s) = some ⟨0, parent.format, [], some P⟩ ∧
    ((inputs.map Prod.fst).Nodup → (final.map Prod.fst).Nodup) := by
  rw [attributeAll_append] at h2
  simp only [h1] at h2
  rw [attributeAll_singleton] at h2
  obtain ⟨out, hone, hlook⟩ := attributeOne_of_mem hp hs
  rw [h2] at hone
  injection hone with h3
  subst h3
  exact ⟨hlook, fun hn => attributeOne_nodup h2 (attributeAll_nodup h1 hn)⟩

/-- Witness for the amended C4. -/
theorem c4_last_writer_witness :
    attributeAll inputsW4 [("a/p1.js", ["shared/util.ts"])] = some midW4 ∧
    lookupKey midW4 "a/p2.js" = some ⟨2, .cjs, [], none⟩ ∧
    attributeAll inputsW4
      ([("a/p1.js", ["shared/util.ts"])] ++ [("a/p2.js", ["shared/util.ts"])])
      = some finalW4 ∧
    lookupKey finalW4 (childKey "a/p2.js" "shared/util.ts")
      = some ⟨0, .cjs, [], some "a/p2.js"⟩ ∧
    (finalW4.map Prod.fst).Nodup := by
  refine ⟨by decide, by decide, by decide, ?_, ?_⟩
  · exact (c4_last_writer_wins inputsW4 midW4 finalW4
      [("a/p1.js", ["shared/util.ts"])] "a/p2.js" ["shared/util.ts"]
      ⟨2, .cjs, [], none⟩ "shared/util.ts"
      (by decide) (by decide) (by decide) (by decide)).1
  · exact (c4_last_writer_wins inputsW4 midW4 finalW4
      [("a/p1.js", ["shared/util.ts"])] "a/p2.js" ["shared/util.ts"]
      ⟨2, .cjs, [], none⟩ "shared/util.ts"
      (by decide) (by decide) (by decide) (by decide)).2 (by decide)

/-- C5 counterexample: the real module `a/real.ts` (reported with 50 bytes,
cjs, one import, `belongsTo = null`) is listed in `a/p.js`'s source map;
attribution overwrites it with a virtual entry — every field changes. -/
theorem c5_real_module_demoted_cex :
    attributeAll inputsW5 [("a/p.js", ["real.ts"])]
      = some [("a/p.js", ⟨100, .esm, [], none⟩),
              ("a/real.ts", ⟨0, .esm, [], some "a/p.js"⟩)] ∧
    (⟨0, .esm, [], some "a/p.js"⟩ : ModuleEntry) ≠ ⟨50, .cjs, ["util"], none⟩ := by
  decide

/-- C5 (amended): when the child key of an attribution already exists as a
real module (`belongsTo = null`), the attribution overwrites that entry with
the virtual entry (`bytes = 0`, parent's format, no entries in `imports`,
`belongsTo` = parent); whenever the real module had a non-zero byte count the
resulting entry differs from it — real modules are not protected. -/
theorem c5_real_module_overwritten
    (inputs : Inputs) (P : String) (sources : List String)
    (parent r : ModuleEntry) (s : String)
    (hp : lookupKey inputs P = some parent) (hs : s ∈ sources)
    (hr : lookupKey inputs (childKey P s) = some r)
    (hreal : r.belongsTo = none) :
    ∃ out, attributeOne inputs P sources = some out ∧
      lookupKey out (childKey P s) = some ⟨0, parent.format, [], some P⟩ ∧
      (r.bytes ≠ 0 → lookupKey out (childKey P s) ≠ some r) := by
  obtain ⟨out, h1, h2⟩ := attributeOne_of_mem hp hs
  refine ⟨out, h1, h2, ?_⟩
  intro hb hcontra
  rw [h2] at hcontra
  injection hcontra with h3
  exact hb (by rw [← h3])

/-- Witness for the amended C5. -/
theorem c5_real_module_witness :
    lookupKey inputsW5 "a/p.js" = some ⟨100, .esm, [], none⟩ ∧
    lookupKey inputsW5 (childKey "a/p.js" "real.ts")
      = some ⟨50, .cjs, ["util"], none⟩ ∧
    ∃ out, attributeOne inputsW5 "a/p.js" ["real.ts"] = some out ∧
      lookupKey out (childKey "a/p.js" "real.ts")
        = some ⟨0, .esm, [], some "a/p.js"⟩ ∧
      ((50 : Nat) ≠ 0 → lookupKey out (childKey "a/p.js" "real.ts")
        ≠ some ⟨50, .cjs, ["util"], none⟩) :=
  ⟨by decide, by decide,
    c5_real_module_overwritten inputsW5 "a/p.js" ["real.ts"]
      ⟨100, .esm, [], none⟩ ⟨50, .cjs, ["util"], none⟩ "real.ts"
      (by decide) (by decide) (by decide) (by decide)⟩

/-! ### Claim theorems C8 – C10 -/

/-- C8 counterexample: `a.js` is present with 5 bytes; the webpack
`optimizeModules` hook then observes the module again through the raw
resource `./a.js`.  The raw-resource existence check misses, so a fresh
record overwrites the entry at the normalized key: `bytes` drops from 5 to 0
even though the hook reports no byte fact (the source carries a
`TODO: Get bytes from the module` comment), so unreported fields are *not*
preserved. -/
theorem c8_upsert_cex :
    optimizeModule inputsW8 moduleW8 = [("a.js", ⟨0, .esm, [], none⟩)] ∧
    (5 : Nat) ≠ 0 := by decide

/-- C8 (amended): when the raw `resource` string itself is a key of the
mapping, `optimizeModules` overwrites exactly `format` and `imports` and
preserves `bytes` and `belongsTo`; when it is not — even if its *normalized*
key is present — a fresh entry with `bytes = 0` and `belongsTo = null`
overwrites the normalized key; and `load` always resets the entry for the
normalized id to the defaults (`bytes 0`, format unknown, no recorded
dependency edges, `belongsTo = null`) regardless of prior state. -/
theorem c8_upsert_amended :
    (∀ (inputs : Inputs) (m : WebpackModule) (e : ModuleEntry),
      lookupKey inputs m.resource = some e →
      lookupKey (optimizeModule inputs m) m.resource =
        some ⟨e.bytes, (if m.type = "javascript/esm" then .esm else .cjs),
          m.deps, e.belongsTo⟩) ∧
    (∀ (inputs : Inputs) (m : WebpackModule),
      lookupKey inputs m.resource = none →
      lookupKey (optimizeModule inputs m) (normalizePath m.resource) =
        some ⟨0, (if m.type = "javascript/esm" then .esm else .cjs),
          m.deps.map normalizePath, none⟩) ∧
    (∀ (st : FactoryState) (id : String) (ms : Option (List String)),
      lookupKey (loadStep st id ms).inputs (normalizePath id)
        = some defaultEntry) := by
  refine ⟨?_, ?_, ?_⟩
  · intro inputs m e he
    simp only [optimizeModule, he]
    exact lookupKey_setKey_self _ _ _
  · intro inputs m he
    simp only [optimizeModule, he]
    exact lookupKey_setKey_self _ _ _
  · intro st id ms
    simp only [loadStep]
    exact lookupKey_setKey_self _ _ _

/-- Witness for the amended C8: a merge observation on an existing key keeps
`bytes = 7` and `belongsTo` while updating `format` and `imports`. -/
theorem c8_upsert_witness :
    lookupKey [("x/m.js", (⟨7, .unknown, [], some "p.js"⟩ : ModuleEntry))]
      "x/m.js" = some ⟨7, .unknown, [], some "p.js"⟩ ∧
    lookupKey (optimizeModule [("x/m.js", ⟨7, .unknown, [], some "p.js"⟩)]
        ⟨"x/m.js", "javascript/esm", ["d.js"]⟩) "x/m.js"
      = some ⟨7, .esm, ["d.js"], some "p.js"⟩ :=
  ⟨by decide,
    c8_upsert_amended.1 [("x/m.js", ⟨7, .unknown, [], some "p.js"⟩)]
      ⟨"x/m.js", "javascript/esm", ["d.js"]⟩ ⟨7, .unknown, [], some "p.js"⟩
      (by decide)⟩

/-- C9: in the report mapping produced by attribution after any sequence of
adapter callbacks, every non-null `belongsTo` value exists as a key of the
same mapping; and the recorded dependency edges of a module equal exactly the
normalized reported ids — they are not filtered against the mapping, so
dangling edges are preserved. -/
theorem c9_belongs_to_exists_and_dangling_kept
    (events : List AdapterEvent) (final : Inputs)
    (h : attributeAll (runEvents initialState events).inputs
      (runEvents initialState events).sourcesGraph = some final) :
    (∀ k e, lookupKey final k = some e → ∀ p, e.belongsTo = some p →
      ∃ e', lookupKey final p = some e') ∧
    (∀ (inputs : Inputs) (id : String) (code : Option String)
        (isCommonJS : Option Bool) (ids : List String),
      (lookupKey (moduleParsed inputs id code isCommonJS ids)
        (normalizePath id)).map ModuleEntry.imports
        = some (ids.map normalizePath)) := by
  constructor
  · have hnone : BelongsNone (runEvents initialState events).inputs :=
      runEvents_belongsNone events initialState
        (fun k e hk => by simp [initialState, lookupKey] at hk)
    exact attributeAll_belongsClosed (belongsNone_belongsClosed hnone) h
  · intro inputs id code isCommonJS ids
    simp [moduleParsed, lookupKey_setKey_self]

/-- Witness for C9: one `load` with a source map whose source escapes the
module's directory. -/
theorem c9_witness :
    attributeAll (runEvents initialState eventsW9).inputs
      (runEvents initialState eventsW9).sourcesGraph = some finalW9 ∧
    (∀ k e, lookupKey finalW9 k = some e → ∀ p, e.belongsTo = some p →
      ∃ e', lookupKey finalW9 p = some e') :=
  ⟨by decide,
    (c9_belongs_to_exists_and_dangling_kept eventsW9 finalW9 (by decide)).1⟩

/-- C10: after the rollup/vite `moduleParsed` hook, the recorded entry has
`bytes` equal to the UTF-8 byte length of the code (0 when absent), `format`
determined by the commonjs metadata flag, then the `.m[tj]sx?` / `.c[tj]sx?`
extension patterns, then `unknown`, and `imports` equal to the normalized
imported ids. -/
theorem c10_rollup_module_entry
    (inputs : Inputs) (id : String) (code : Option String)
    (isCommonJS : Option Bool) (ids : List String) :
    lookupKey (moduleParsed inputs id code isCommonJS ids) (normalizePath id)
      = some ⟨(match code with | some c => c.utf8ByteSize | none => 0),
          (match isCommonJS with
           | some true => .cjs
           | some false => .esm
           | none =>
             if matchesEsmExt id then .esm
             else if matchesCjsExt id then .cjs
             else .unknown),
          ids.map normalizePath,
          ((lookupKey inputs (normalizePath id)).getD defaultEntry).belongsTo⟩ := by
  simp only [moduleParsed, lookupKey_setKey_self, Option.some.injEq,
    ModuleEntry.mk.injEq]
  refine ⟨?_, ?_, trivial, trivial⟩
  · cases code with
    | none => rfl
    | some c =>
      by_cases hc : c = ""
      · subst hc
        simp only [moduleBytes, if_pos rfl]
        decide
      · simp [moduleBytes, hc]
  · cases isCommonJS with
    | none =>
      by_cases h1 : matchesEsmExt id <;> by_cases h2 : matchesCjsExt id <;>
        simp [rollupFormat, guessFormat, h1, h2]
    | some b => cases b <;> rfl

/-! ### Size-distribution lemmas and claim C6 -/

theorem sizeOne_belongsTo (inputs : Inputs) (kv : String × ModuleEntry) :
    (sizeOne inputs kv).2.belongsTo = kv.2.belongsTo := by
  unfold sizeOne
  cases h : kv.2.belongsTo <;> simp [h]

theorem sizeOne_bytes_of_belongsTo (inputs : Inputs)
    (kv : String × ModuleEntry) (p : String) (h : kv.2.belongsTo = some p) :
    (sizeOne inputs kv).2.bytes = childShare inputs p kv.1 := by
  unfold sizeOne
  rw [h]

/-- C6: for a compiled module with virtual children and no mapped-range
information, size computation splits the parent's bytes equally among its
immediate virtual children, the rounding remainder going to the first child
in order, so that the children's bytes sum exactly to the parent's bytes. -/
theorem c6_equal_split_conservation
    (inputs : Inputs) (p : String) (pe : ModuleEntry)
    (hnd : (inputs.map Prod.fst).Nodup)
    (hp : lookupKey inputs p = some pe)
    (hne : virtualChildren inputs p ≠ []) :
    ((computeSizes inputs).filter (fun kv => kv.2.belongsTo = some p)).map
        (fun kv => kv.2.bytes)
      = (pe.bytes / (virtualChildren inputs p).length
          + pe.bytes % (virtualChildren inputs p).length)
        :: List.replicate ((virtualChildren inputs p).length - 1)
          (pe.bytes / (virtualChildren inputs p).length) ∧
    (((computeSizes inputs).filter (fun kv => kv.2.belongsTo = some p)).map
        (fun kv => kv.2.bytes)).sum = pe.bytes := by
  have hfil : (computeSizes inputs).filter
        (fun kv => decide (kv.2.belongsTo = some p))
      = (inputs.filter (fun kv => decide (kv.2.belongsTo = some p))).map
        (sizeOne inputs) := by
    unfold computeSizes
    rw [List.filter_map]
    congr 1
    apply List.filter_congr
    intro kv _
    simp [Function.comp, sizeOne_belongsTo]
  have hmap : ((computeSizes inputs).filter
        (fun kv => decide (kv.2.belongsTo = some p))).map (fun kv => kv.2.bytes)
      = (inputs.filter (fun kv => decide (kv.2.belongsTo = some p))).map
        (fun kv => childShare inputs p kv.1) := by
    rw [hfil, List.map_map]
    apply List.map_congr_left
    intro kv hkv
    have hb : kv.2.belongsTo = some p := by
      have := List.of_mem_filter hkv
      simpa using this
    simp [Function.comp, sizeOne_bytes_of_belongsTo inputs kv p hb]
  obtain ⟨kv0, rest, hcs⟩ :
      ∃ kv0 rest, inputs.filter
        (fun kv => decide (kv.2.belongsTo = some p)) = kv0 :: rest := by
    cases h : inputs.filter (fun kv => decide (kv.2.belongsTo = some p)) with
    | nil =>
      exfalso
      apply hne
      unfold virtualChildren
      rw [h]
      rfl
    | cons a l => exact ⟨a, l, rfl⟩
  have hvc : virtualChildren inputs p = kv0.1 :: rest.map Prod.fst := by
    unfold virtualChildren
    rw [hcs]
    rfl
  have hks : (virtualChildren inputs p).Nodup := by
    have hsub : List.Sublist
        ((inputs.filter
          (fun kv => decide (kv.2.belongsTo = some p))).map Prod.fst)
        (inputs.map Prod.fst) :=
      (List.filter_sublist _).map Prod.fst
    exact List.Nodup.sublist hsub hnd
  have hnotmem : kv0.1 ∉ rest.map Prod.fst := by
    rw [hvc] at hks
    exact (List.nodup_cons.mp hks).1
  have hn : (virtualChildren inputs p).length = rest.length + 1 := by
    rw [hvc]
    simp
  have hshare0 : childShare inputs p kv0.1
      = pe.bytes / (rest.length + 1) + pe.bytes % (rest.length + 1) := by
    unfold childShare
    rw [hvc, hp]
    simp
  have hshare1 : ∀ kv ∈ rest, childShare inputs p kv.1
      = pe.bytes / (rest.length + 1) := by
    intro kv hkv
    have hne0 : kv0.1 ≠ kv.1 := by
      intro hcontra
      exact hnotmem (hcontra ▸ List.mem_map_of_mem Prod.fst hkv)
    unfold childShare
    rw [hvc, hp]
    simp [hne0]
  have hlist : ((computeSizes inputs).filter
        (fun kv => decide (kv.2.belongsTo = some p))).map (fun kv => kv.2.bytes)
      = (pe.bytes / (rest.length + 1) + pe.bytes % (rest.length + 1))
        :: List.replicate rest.length (pe.bytes / (rest.length + 1)) := by
    rw [hmap, hcs, List.map_cons, hshare0]
    congr 1
    calc rest.map (fun kv => childShare inputs p kv.1)
        = rest.map (fun _ => pe.bytes / (rest.length + 1)) :=
          List.map_congr_left hshare1
      _ = List.replicate rest.length (pe.bytes / (rest.length + 1)) := by
          rw [List.map_const']
  constructor
  · rw [hlist, hn]
    simp
  · rw [hlist]
    have hdm : (rest.length + 1) * (pe.bytes / (rest.length + 1))
        + pe.bytes % (rest.length + 1) = pe.bytes :=
      Nat.div_add_mod pe.bytes (rest.length + 1)
    simp only [List.sum_cons, List.sum_replicate, smul_eq_mul]
    calc pe.bytes / (rest.length + 1) + pe.bytes % (rest.length + 1)
          + rest.length * (pe.bytes / (rest.length + 1))
        = (rest.length + 1) * (pe.bytes / (rest.length + 1))
          + pe.bytes % (rest.length + 1) := by ring
      _ = pe.bytes := hdm

/-- Witness for C6: the spec §8 scenario — parent with 238 bytes and two
virtual children receives a 119/119 split that sums back to 238. -/
theorem c6_equal_split_witness :
    (inputsW6.map Prod.fst).Nodup ∧
    lookupKey inputsW6 "a/b/bundle.js" = some ⟨238, .esm, [], none⟩ ∧
    virtualChildren inputsW6 "a/b/bundle.js" ≠ [] ∧
    (((computeSizes inputsW6).filter
        (fun kv => kv.2.belongsTo = some "a/b/bundle.js")).map
        (fun kv => kv.2.bytes)).sum = 238 :=
  ⟨by decide, by decide, by decide,
    (c6_equal_split_conservation inputsW6 "a/b/bundle.js" ⟨238, .esm, [], none⟩
      (by decide) (by decide) (by decide)).2⟩

/-! ### Path normalization lemmas and claim C7 -/

theorem toSlash_ne_bs (c : Char) : toSlash c ≠ '\\' := by
  unfold toSlash
  by_cases h : c = '\\'
  · subst h
    simp only [if_pos rfl]
    decide
  · simp [h]

theorem bs_not_mem_map_toSlash (cs : List Char) : '\\' ∉ cs.map toSlash := by
  intro h
  obtain ⟨c, _, hc⟩ := List.mem_map.mp h
  exact toSlash_ne_bs c hc

theorem map_toSlash_id (l : List Char) (h : '\\' ∉ l) : l.map toSlash = l := by
  induction l with
  | nil => rfl
  | cons c cs ih =>
    have hc : c ≠ '\\' := fun hc => h (hc ▸ List.mem_cons_self c cs)
    have hcs : '\\' ∉ cs := fun hm => h (List.mem_cons_of_mem c hm)
    simp [toSlash, hc, ih hcs]

theorem splitSegs_ne_nil (cs : List Char) : splitSegs cs ≠ [] := by
  induction cs with
  | nil => simp [splitSegs]
  | cons c cs ih =>
    by_cases h : c = '/'
    · simp [splitSegs, h]
    · cases hs : splitSegs cs with
      | nil => exact absurd hs ih
      | cons s ss => simp [splitSegs, h, hs]

theorem mem_splitSegs_props (cs : List Char) :
    ∀ s ∈ splitSegs cs, '/' ∉ s ∧ ∀ c ∈ s, c ∈ cs := by
  induction cs with
  | nil =>
    intro s hs
    simp only [splitSegs, List.mem_singleton] at hs
    subst hs
    simp
  | cons c cs ih =>
    intro s hs
    by_cases h : c = '/'
    · simp only [splitSegs, if_pos h] at hs
      rcases List.mem_cons.mp hs with h1 | h1
      · subst h1
        simp
      · obtain ⟨hsl, hch⟩ := ih s h1
        exact ⟨hsl, fun c' hc' => List.mem_cons_of_mem _ (hch c' hc')⟩
    · cases hsp : splitSegs cs with
      | nil => exact absurd hsp (splitSegs_ne_nil cs)
      | cons s0 ss =>
        simp only [splitSegs, if_neg h, hsp] at hs
        rcases List.mem_cons.mp hs with h1 | h1
        · subst h1
          have hs0 := ih s0 (by rw [hsp]; exact List.mem_cons_self s0 ss)
          constructor
          · intro hmem
            rcases List.mem_cons.mp hmem with h2 | h2
            · exact h h2.symm
            · exact hs0.1 h2
          · intro c' hc'
            rcases List.mem_cons.mp hc' with h2 | h2
            · subst h2
              exact List.mem_cons_self _ _
            · exact List.mem_cons_of_mem c (hs0.2 c' h2)
        · have hmem := ih s (by rw [hsp]; exact List.mem_cons_of_mem s0 h1)
          exact ⟨hmem.1, fun c' hc' => List.mem_cons_of_mem c (hmem.2 c' hc')⟩

theorem splitSegs_no_slash (cs : List Char) (h : '/' ∉ cs) :
    splitSegs cs = [cs] := by
  induction cs with
  | nil => rfl
  | cons c cs ih =>
    have hc : c ≠ '/' := fun hc => h (hc ▸ List.mem_cons_self c cs)
    have hcs : '/' ∉ cs := fun hm => h (List.mem_cons_of_mem c hm)
    simp only [splitSegs, if_neg hc, ih hcs]

theorem splitSegs_append (s : List Char) (h : '/' ∉ s) (cs : List Char) :
    splitSegs (s ++ '/' :: cs) = s :: splitSegs cs := by
  induction s with
  | nil => simp [splitSegs]
  | cons c s ih =>
    have hc : c ≠ '/' := fun hc => h (hc ▸ List.mem_cons_self c s)
    have hs : '/' ∉ s := fun hm => h (List.mem_cons_of_mem c hm)
    simp only [List.cons_append, splitSegs, if_neg hc, List.append_eq, ih hs]

theorem splitSegs_joinSegs (ys : List (List Char)) (hne : ys ≠ [])
    (h : ∀ s ∈ ys, '/' ∉ s) : splitSegs (joinSegs ys) = ys := by
  induction ys with
  | nil => exact absurd rfl hne
  | cons s ys ih =>
    cases ys with
    | nil =>
      simp only [joinSegs]
      exact splitSegs_no_slash s (h s (List.mem_cons_self s []))
    | cons s' ys' =>
      have h1 : '/' ∉ s := h s (List.mem_cons_self _ _)
      have h2 : ∀ t ∈ s' :: ys', '/' ∉ t :=
        fun t ht => h t (List.mem_cons_of_mem s ht)
      simp only [joinSegs]
      rw [splitSegs_append s h1, ih (by simp) h2]

theorem joinSegs_chars (ys : List (List Char)) :
    ∀ c ∈ joinSegs ys, c = '/' ∨ ∃ s ∈ ys, c ∈ s := by
  induction ys with
  | nil =>
    intro c hc
    simp [joinSegs] at hc
  | cons s ys ih =>
    cases ys with
    | nil =>
      intro c hc
      simp only [joinSegs] at hc
      exact Or.inr ⟨s, List.mem_cons_self _ _, hc⟩
    | cons s' ys' =>
      intro c hc
      simp only [joinSegs] at hc
      rcases List.mem_append.mp hc with h1 | h1
      · exact Or.inr ⟨s, List.mem_cons_self _ _, h1⟩
      · rcases List.mem_cons.mp h1 with h2 | h2
        · exact Or.inl h2
        · rcases ih c h2 with h3 | ⟨t, ht, hc'⟩
          · exact Or.inl h3
          · exact Or.inr ⟨t, List.mem_cons_of_mem s ht, hc'⟩

theorem pushSeg_skip (st : List (List Char)) (s : List Char)
    (h : s = [] ∨ s = ['.']) : pushSeg st s = st := by
  unfold pushSeg
  rw [if_pos h]

theorem pushSeg_dotdot (st : List (List Char)) :
    pushSeg st ['.', '.'] = popDots st := by
  unfold pushSeg
  rw [if_neg (by decide), if_pos rfl]

theorem pushSeg_normal (st : List (List Char)) (s : List Char)
    (h1 : ¬(s = [] ∨ s = ['.'])) (h2 : s ≠ ['.', '.']) :
    pushSeg st s = s :: st := by
  unfold pushSeg
  rw [if_neg h1, if_neg h2]

theorem popDots_replicate (k : Nat) :
    popDots (List.replicate k ['.', '.'])
      = List.replicate (k + 1) ['.', '.'] := by
  cases k with
  | zero => rfl
  | succ k' => simp [popDots, List.replicate_succ]

theorem popDots_cons_normal (n : List Char) (rest : List (List Char))
    (h : n ≠ ['.', '.']) : popDots (n :: rest) = rest := by
  simp [popDots, h]

theorem pushSeg_stackOk (st : List (List Char)) (s : List Char)
    (hst : StackOk st) (hsl : '/' ∉ s) (hbs : '\\' ∉ s) :
    StackOk (pushSeg st s) := by
  obtain ⟨ns, k, rfl, hns⟩ := hst
  by_cases h1 : s = [] ∨ s = ['.']
  · rw [pushSeg_skip _ _ h1]
    exact ⟨ns, k, rfl, hns⟩
  · by_cases h2 : s = ['.', '.']
    · subst h2
      rw [pushSeg_dotdot]
      cases ns with
      | nil =>
        refine ⟨[], k + 1, ?_, fun s hs => absurd hs (List.not_mem_nil s)⟩
        rw [List.nil_append, List.nil_append, popDots_replicate]
      | cons n ns' =>
        have hn : SegOk n := hns n (List.mem_cons_self _ _)
        refine ⟨ns', k, ?_, fun s hs => hns s (List.mem_cons_of_mem n hs)⟩
        rw [List.cons_append, popDots_cons_normal n _ hn.2.2.1]
    · rw [pushSeg_normal _ _ h1 h2]
      refine ⟨s :: ns, k, by rw [List.cons_append], ?_⟩
      intro t ht
      rcases List.mem_cons.mp ht with h3 | h3
      · subst h3
        refine ⟨?_, ?_, h2, hsl, hbs⟩
        · intro h'
          exact h1 (Or.inl h')
        · intro h'
          exact h1 (Or.inr h')
      · exact hns t h3

theorem foldl_pushSeg_stackOk (segs : List (List Char)) :
    ∀ st, StackOk st → (∀ s ∈ segs, '/' ∉ s ∧ '\\' ∉ s) →
      StackOk (segs.foldl pushSeg st) := by
  induction segs with
  | nil =>
    intro st h _
    simpa using h
  | cons s segs' ih =>
    intro st h hsegs
    rw [List.foldl_cons]
    have hs := hsegs s (List.mem_cons_self _ _)
    exact ih _ (pushSeg_stackOk st s h hs.1 hs.2)
      (fun t ht => hsegs t (List.mem_cons_of_mem s ht))

theorem foldl_pushSeg_dots (k : Nat) :
    ∀ m, (List.replicate k ['.', '.']).foldl pushSeg
      (List.replicate m ['.', '.']) = List.replicate (m + k) ['.', '.'] := by
  induction k with
  | zero =>
    intro m
    simp
  | succ k' ih =>
    intro m
    rw [List.replicate_succ, List.foldl_cons, pushSeg_dotdot,
      popDots_replicate, ih (m + 1)]
    congr 1
    omega

theorem foldl_pushSeg_normals (ms : List (List Char)) :
    ∀ st, (∀ s ∈ ms, SegOk s) →
      ms.foldl pushSeg st = ms.reverse ++ st := by
  induction ms with
  | nil =>
    intro st _
    simp
  | cons m ms' ih =>
    intro st h
    have hm := h m (List.mem_cons_self _ _)
    have hskip : ¬(m = [] ∨ m = ['.']) := by
      rintro (h' | h')
      · exact hm.1 h'
      · exact hm.2.1 h'
    rw [List.foldl_cons, pushSeg_normal st m hskip hm.2.2.1,
      ih (m :: st) (fun s hs => h s (List.mem_cons_of_mem m hs))]
    simp

theorem stackOk_mem (st : List (List Char)) (h : StackOk st) :
    ∀ s ∈ st, '/' ∉ s ∧ '\\' ∉ s := by
  obtain ⟨ns, k, rfl, hns⟩ := h
  intro s hs
  rcases List.mem_append.mp hs with h1 | h1
  · have := hns s h1
    exact ⟨this.2.2.2.1, this.2.2.2.2⟩
  · have := List.eq_of_mem_replicate h1
    subst this
    constructor <;> decide

theorem resolveSegs_of_stackOk (st : List (List Char)) (h : StackOk st) :
    resolveSegs st.reverse = st.reverse := by
  obtain ⟨ns, k, rfl, hns⟩ := h
  unfold resolveSegs
  have hd : List.foldl pushSeg [] (List.replicate k ['.', '.'])
      = List.replicate k ['.', '.'] := by
    simpa using foldl_pushSeg_dots k 0
  have hrev : ∀ s ∈ ns.reverse, SegOk s := by
    intro s hs
    exact hns s (List.mem_reverse.mp hs)
  rw [List.reverse_append, List.reverse_replicate, List.foldl_append, hd,
    foldl_pushSeg_normals ns.reverse _ hrev, List.reverse_reverse]
  simp [List.reverse_append, List.reverse_replicate]

theorem normChars_fix (st : List (List Char)) (h : StackOk st) :
    joinSegs (resolveSegs (splitSegs (joinSegs st.reverse)))
      = joinSegs st.reverse := by
  cases hrev : st.reverse with
  | nil => decide
  | cons y ys' =>
    rw [← hrev,
      splitSegs_joinSegs st.reverse (by rw [hrev]; exact List.cons_ne_nil y ys')
        (fun s hs => (stackOk_mem st h s (List.mem_reverse.mp hs)).1),
      resolveSegs_of_stackOk st h]

theorem normChars_idem (l : List Char) :
    normChars (normChars l) = normChars l := by
  have hstack : StackOk ((splitSegs (l.map toSlash)).foldl pushSeg []) := by
    apply foldl_pushSeg_stackOk (splitSegs (l.map toSlash)) []
      ⟨[], 0, rfl, fun s hs => absurd hs (List.not_mem_nil s)⟩
    intro s hs
    have hprops := mem_splitSegs_props (l.map toSlash) s hs
    exact ⟨hprops.1, fun hbs => bs_not_mem_map_toSlash l (hprops.2 '\\' hbs)⟩
  have hnobs : '\\' ∉ joinSegs (resolveSegs (splitSegs (l.map toSlash))) := by
    intro hmem
    rcases joinSegs_chars _ '\\' hmem with h1 | ⟨s, hs, hc⟩
    · exact absurd h1 (by decide)
    · exact (stackOk_mem _ hstack s (List.mem_reverse.mp hs)).2 hc
  show joinSegs (resolveSegs (splitSegs
      ((joinSegs (resolveSegs (splitSegs (l.map toSlash)))).map toSlash)))
    = normChars l
  rw [map_toSlash_id _ hnobs]
  exact normChars_fix ((splitSegs (l.map toSlash)).foldl pushSeg []) hstack

theorem normalizePath_idem (x : String) :
    normalizePath (normalizePath x) = normalizePath x :=
  congrArg String.mk (normChars_idem x.data)

/-- C7: the path normalization function is idempotent, and inputs that differ
only in separator style or redundant segments map to the same canonical key
(`a\b/../c` and `a/c` give the same key). -/
theorem c7_normalize_idempotent_sep_invariant :
    (∀ x : String, normalizePath (normalizePath x) = normalizePath x) ∧
    normalizePath "a\\b/../c" = normalizePath "a/c" :=
  ⟨normalizePath_idem, by decide⟩
